import Mathlib

/-!
Shallow embedding of the `cold` cooperative executor (files `src/rt.rs` and
`src/net/mod.rs`) and proofs about its run loop, registry bookkeeping and
I/O adapter.

Modelling conventions:
* machine values that the claims need (tokens, task ids, byte counts) are `Nat`;
* the OS readiness primitive (`mio::Poll`) is external: its outcomes are passed
  in as explicit parameters (`Except IoError _` results, and an oracle of
  readiness batches for the blocking wait);
* a Rust panic (the unchecked `.unwrap()` on a dead `Weak`) is modelled as the
  `none` branch of an `Option` result;
* each task's type-erased future is modelled by a behaviour function giving,
  for a task id and the number of polls already performed, the registry
  operations the poll executes, the ids it spawns, and whether it returns
  `Pending`.
-/

set_option autoImplicit false

deriving instance DecidableEq for Except

namespace Cold

/-- `mio`-style token: plain integer. -/
abbrev Token := Nat

/-- The error kinds `src/net/mod.rs` discriminates on, plus an opaque rest. -/
inductive ErrorKind where
  | wouldBlock
  | unexpectedEof
  | other (code : Nat)
deriving DecidableEq, Repr

/-- An `io::Error`, reduced to its kind (all the code inspects). -/
structure IoError where
  kind : ErrorKind
deriving DecidableEq, Repr

/-- `core::task::Poll`. -/
inductive Poll (α : Type) where
  | ready (value : α)
  | pending
deriving DecidableEq, Repr

/-- `Poll::is_pending`. -/
def Poll.is_pending {α : Type} : Poll α → Bool
  | .ready _ => false
  | .pending => true

/-! ## `RegistryInner` and `Registry` (src/rt.rs)

`RegistryInner` owns the OS poll handle (abstracted away) and the
`last_token : Option<Token>` record.  `Registry` holds a `Weak` reference to
it; `Registry::inner` upgrades and unwraps (panic = `none`). -/

/-- `RegistryInner` without the external `mio::Poll` handle. -/
structure RegistryInner where
  last_token : Option Token
deriving DecidableEq, Repr

/-- `RegistryInner::last`. -/
def RegistryInner.last (s : RegistryInner) : Option Token :=
  s.last_token

/-- `Registry::inner`: upgrade the weak reference (`none` when the executor is
gone, in which case the source panics on `.unwrap()`, modelled as `none`),
then run the closure on the locked state. -/
def Registry.inner {β : Type} (weakRef : Option RegistryInner)
    (f : RegistryInner → RegistryInner × β) : Option (RegistryInner × β) :=
  match weakRef with
  | none => none
  | some s => some (f s)

/-- `Registry::register`: the closure sets `last_token := Some(token)` and then
performs the OS registration, whose outcome `osRes` is external. -/
def Registry.register (weakRef : Option RegistryInner) (token : Token)
    (osRes : Except IoError Unit) : Option (RegistryInner × Except IoError Unit) :=
  Registry.inner weakRef (fun s => ({ s with last_token := some token }, osRes))

/-- `Registry::reregister`: same bookkeeping as `register`, then the OS
reregistration call. -/
def Registry.reregister (weakRef : Option RegistryInner) (token : Token)
    (osRes : Except IoError Unit) : Option (RegistryInner × Except IoError Unit) :=
  Registry.inner weakRef (fun s => ({ s with last_token := some token }, osRes))

/-- `Registry::deregister`: the closure sets `last_token := None` and then
performs the OS deregistration. -/
def Registry.deregister (weakRef : Option RegistryInner)
    (osRes : Except IoError Unit) : Option (RegistryInner × Except IoError Unit) :=
  Registry.inner weakRef (fun s => ({ s with last_token := none }, osRes))

/-! ## `Spawner` (src/rt.rs)

`Spawner::spawn` builds the future, wraps it in a `Task` and pushes it onto
the injector through `self.inner.upgrade().unwrap()`. -/

/-- `SpawnerInner`: the injection queue (crossbeam `Injector`, FIFO: push at
the back, steal from the front), with task type abstract. -/
structure SpawnerInner (τ : Type) where
  injector : List τ
deriving DecidableEq, Repr

/-- `Spawner::spawn` through a weak reference: `none` models the panic on a
dead executor; otherwise the task is pushed at the back of the injector. -/
def Spawner.spawn {τ : Type} (weakRef : Option (SpawnerInner τ)) (task : τ) :
    Option (SpawnerInner τ) :=
  match weakRef with
  | none => none
  | some s => some { injector := s.injector ++ [task] }

/-! ## `WithRegistry` (src/net/mod.rs)

The I/O adapter: a raw resource, plus the executor handle (abstracted: the
outcome of its registration call is a parameter), plus the `registered` flag.
The `?` on the register call inside `poll_next` (return type
`Poll<Option<Result<_>>>`) yields `Ready(Some(Err(e)))`; inside `poll_read`
(return type `Poll<Result<_>>`) it yields `Ready(Err(e))`. -/

/-- `WithRegistry`: wrapped resource and the `registered` flag. -/
structure WithRegistry (T : Type) where
  inner : T
  registered : Bool
deriving DecidableEq, Repr

/-- `WithRegistry::new`. -/
def WithRegistry.new {T : Type} (inner : T) : WithRegistry T :=
  { inner := inner, registered := false }

/-- `<WithRegistry<TcpListener> as Stream>::poll_next`.  `regRes` is the
outcome of `executor.register(...)` when it is performed; `acceptRes` is the
outcome of the non-blocking `accept` (`A` stands for the accepted
`(TcpStream, SocketAddr)` pair). -/
def WithRegistry.poll_next {T A : Type} (w : WithRegistry T)
    (regRes : Except IoError Unit) (acceptRes : Except IoError A) :
    WithRegistry T × Poll (Option (Except IoError A)) :=
  match (if w.registered then Except.ok () else regRes) with
  | .error e => (w, .ready (some (.error e)))
  | .ok () =>
    let w' := { w with registered := true }
    match acceptRes with
    | .ok p => (w', .ready (some (.ok p)))
    | .error e =>
      if e.kind = .wouldBlock then (w', .pending)
      else if e.kind = .unexpectedEof then (w', .ready none)
      else (w', .ready (some (.error e)))

/-- `<WithRegistry<T> as AsyncRead>::poll_read`: same registration pattern,
then the non-blocking `read`, whose outcome `readRes` carries the byte
count. -/
def WithRegistry.poll_read {T : Type} (w : WithRegistry T)
    (regRes : Except IoError Unit) (readRes : Except IoError Nat) :
    WithRegistry T × Poll (Except IoError Nat) :=
  match (if w.registered then Except.ok () else regRes) with
  | .error e => (w, .ready (.error e))
  | .ok () =>
    let w' := { w with registered := true }
    match readRes with
    | .ok n => (w', .ready (.ok n))
    | .error e =>
      if e.kind = .wouldBlock then (w', .pending)
      else (w', .ready (.error e))

/-- `WithRegistry::deregister`: if `registered`, performs the deregistration
request (outcome `deregRes`) — the source does NOT reset the flag — otherwise
a no-op returning `Ok(())`.  The `Bool` in the result records whether a
deregistration request was issued to the Registry. -/
def WithRegistry.deregister {T : Type} (w : WithRegistry T)
    (deregRes : Except IoError Unit) :
    WithRegistry T × Except IoError Unit × Bool :=
  if w.registered then (w, deregRes, true) else (w, Except.ok (), false)

/-! ## The run loop (`Executor::run_inner`, src/rt.rs)

The loop is single-threaded; each iteration first drains the injector
(`while !injector.is_empty { steal; poll once; park or drop }`), then, if the
parked-task map `waiting` is non-empty, blocks on the OS wait call and repolls
every parked task whose token appears in the readiness batch; if `waiting` is
empty it breaks with `Ok(())`.

A task's future is abstracted by a behaviour `beh : Nat → Nat → StepSpec`:
`beh id n` describes what the `n`-th poll of a task with identity `id` does —
which registry bookkeeping operations it performs, which task ids it spawns
(pushed at the back of the injector, in order), and whether it returns
`Pending`.  Each live `Task` additionally carries a unique `serial` number
(assigned from a counter at spawn time) so that "this very task object" can
be traced across the execution even when task ids are reused.

The trace records every poll (`polled id serial pollIndex`) and every
invocation of the blocking wait call (`waited`), in order. -/

/-- A registry bookkeeping operation a task performs during one poll. -/
inductive RegOp where
  | register (token : Token)
  | reregister (token : Token)
  | deregister
deriving DecidableEq, Repr

/-- Effect of one `RegOp` on the registry bookkeeping (`last_token`): both
`register` and `reregister` set it to the token, `deregister` clears it. -/
def applyRegOp (op : RegOp) (s : RegistryInner) : RegistryInner :=
  match op with
  | .register t => { s with last_token := some t }
  | .reregister t => { s with last_token := some t }
  | .deregister => { s with last_token := none }

/-- Effect of a poll's whole sequence of registry operations. -/
def applyRegOps (ops : List RegOp) (s : RegistryInner) : RegistryInner :=
  ops.foldl (fun r op => applyRegOp op r) s

/-- What one poll of a task does. -/
structure StepSpec where
  ops : List RegOp
  spawns : List Nat
  pending : Bool
deriving DecidableEq, Repr

/-- Behaviour table: task id ↦ poll index ↦ step. -/
abbrev Behavior := Nat → Nat → StepSpec

/-- A live task: identity, unique serial number, number of polls already
performed on its future. -/
structure Task where
  id : Nat
  serial : Nat
  polls : Nat
deriving DecidableEq, Repr

instance : Inhabited Task := ⟨⟨0, 0, 0⟩⟩

/-- Event recorded in the execution trace. -/
inductive Ev where
  | polled (id serial pollIdx : Nat)
  | waited
deriving DecidableEq, Repr

/-- State of `run_inner` between primitive steps. -/
structure LoopState where
  injector : List Task
  waiting : List (Token × Task)
  reg : RegistryInner
  oracle : List (Except IoError (List Token))
  counter : Nat
  trace : List Ev
deriving DecidableEq, Repr

/-- `HashMap::insert`: at most one entry per token, insertion replaces. -/
def insertW (tok : Token) (t : Task) (w : List (Token × Task)) :
    List (Token × Task) :=
  (tok, t) :: w.filter (fun p => p.1 ≠ tok)

/-- `HashMap::remove` (the lookup half). -/
def lookupW (tok : Token) (w : List (Token × Task)) : Option Task :=
  (w.find? (fun p => p.1 == tok)).map Prod.snd

/-- `HashMap::remove` (the deletion half). -/
def removeW (tok : Token) (w : List (Token × Task)) : List (Token × Task) :=
  w.filter (fun p => p.1 ≠ tok)

/-- Tasks created by the spawn calls of one poll: ids in order, fresh serial
numbers starting at `counter`, zero polls performed. -/
def spawnTasks : List Nat → Nat → List Task
  | [], _ => []
  | id :: rest, counter => ⟨id, counter, 0⟩ :: spawnTasks rest (counter + 1)

/-- Poll a task once (the body shared by the drain and wake phases of
`run_inner`): run the poll (registry side effects, spawns pushed at the back
of the injector, trace event), then — if it returned `Pending` — consult
`reg.last()`: park the task under that token if it is `Some`, drop the task
otherwise; a completed task is dropped either way. -/
def pollTask (beh : Behavior) (t : Task) (st : LoopState) : LoopState :=
  let step := beh t.id t.polls
  let st' : LoopState :=
    { st with
      reg := applyRegOps step.ops st.reg
      injector := st.injector ++ spawnTasks step.spawns st.counter
      counter := st.counter + step.spawns.length
      trace := st.trace ++ [Ev.polled t.id t.serial t.polls] }
  if step.pending then
    match st'.reg.last with
    | some tok =>
      { st' with waiting := insertW tok { t with polls := t.polls + 1 } st'.waiting }
    | none => st'
  else st'

/-- The drain phase: steal from the front of the injector and poll until the
injector is observed empty.  `fuel` bounds the number of steals; the `Bool`
reports whether the phase reached the empty-injector exit. -/
def drain (beh : Behavior) : Nat → LoopState → LoopState × Bool
  | 0, st => (st, st.injector.isEmpty)
  | fuel + 1, st =>
    match st.injector with
    | [] => (st, true)
    | t :: rest => drain beh fuel (pollTask beh t { st with injector := rest })

/-- The wake phase: for each token of the readiness batch, if a task is parked
under it, remove and repoll it (which may park it again, possibly under a new
token, visible to later events of the same batch). -/
def wakeTasks (beh : Behavior) : List Token → LoopState → LoopState
  | [], st => st
  | tok :: rest, st =>
    match lookupW tok st.waiting with
    | some t =>
      wakeTasks beh rest (pollTask beh t { st with waiting := removeW tok st.waiting })
    | none => wakeTasks beh rest st

/-- Result of `run_inner`: `ok` is `break Ok(())`, `ioError` is the `?` on the
wait call, `stuck` covers exhausted fuel and an exhausted readiness oracle
(the executions the finite model cannot finish). -/
inductive Outcome where
  | ok (st : LoopState)
  | ioError (e : IoError) (st : LoopState)
  | stuck (st : LoopState)
deriving DecidableEq, Repr

/-- The state an outcome carries. -/
def Outcome.state : Outcome → LoopState
  | .ok st => st
  | .ioError _ st => st
  | .stuck st => st

/-- `run_inner`: iterate drain / empty-check / blocking wait / wake.  `df` is
the drain-phase fuel, the main `Nat` argument bounds the number of loop
iterations. -/
def runLoop (beh : Behavior) (df : Nat) : Nat → LoopState → Outcome
  | 0, st => .stuck st
  | fuel + 1, st =>
    let p := drain beh df st
    if p.2 = false then .stuck p.1
    else if p.1.waiting.isEmpty then .ok p.1
    else
      match p.1.oracle with
      | [] => .stuck p.1
      | batch :: rest =>
        let st2 : LoopState :=
          { p.1 with oracle := rest, trace := p.1.trace ++ [Ev.waited] }
        match batch with
        | .error e => .ioError e st2
        | .ok events => runLoop beh df fuel (wakeTasks beh events st2)

/-- The serial numbers of every task the loop still tracks. -/
def serialsOf (st : LoopState) : List Nat :=
  st.injector.map Task.serial ++ st.waiting.map (fun p => p.2.serial)

/-- All tracked serial numbers are below the spawn counter. -/
def Bounded (st : LoopState) : Prop :=
  ∀ s ∈ serialsOf st, s < st.counter

instance (st : LoopState) : Decidable (Bounded st) := by
  unfold Bounded; infer_instance

/-- Trace events before the first blocking wait. -/
def beforeFirstWait (tr : List Ev) : List Ev :=
  tr.takeWhile (fun e => e != Ev.waited)

/-! ## The no-op waker (`run_inner`, src/rt.rs)

`run_inner` builds a `RawWaker` over a null data pointer with a vtable whose
`clone` entry returns a `RawWaker` with the same data pointer and the same
vtable, and whose `wake`, `wake_by_ref` and `drop` entries are `|_| ()`: they
receive only the data pointer, touch nothing, and return unit.  Modelled as a
waker value whose wake operations are the identity on the executor state (a
function that performs no effect is the identity state transformer). -/

/-- The run loop's handcrafted waker: only the null data pointer. -/
structure NoopWaker where
  data : Unit
deriving DecidableEq, Repr

/-- Vtable `clone` entry: a waker with the same data pointer (and vtable). -/
def NoopWaker.clone (w : NoopWaker) : NoopWaker :=
  { data := w.data }

/-- Vtable `wake` entry `|_| ()`: no effect on the executor state. -/
def NoopWaker.wake (w : NoopWaker) (st : LoopState) : LoopState :=
  st

/-- Vtable `wake_by_ref` entry `|_| ()`: no effect on the executor state. -/
def NoopWaker.wake_by_ref (w : NoopWaker) (st : LoopState) : LoopState :=
  st

/-! ## Concrete scenario inputs used to evaluate the theorems -/

/-- Scenario: task 0 registers token 5 and yields; task 1 performs no
registry operation at all and yields. -/
def behC1 : Behavior := fun id n =>
  match id, n with
  | 0, 0 => { ops := [RegOp.register 5], spawns := [], pending := true }
  | 1, 0 => { ops := [], spawns := [], pending := true }
  | _, _ => { ops := [], spawns := [], pending := false }

/-- Start state for the `behC1` scenario: both tasks freshly injected, the
oracle reports token 5 ready at the first wait. -/
def stC1 : LoopState :=
  { injector := [⟨0, 0, 0⟩, ⟨1, 1, 0⟩], waiting := [], reg := ⟨none⟩,
    oracle := [Except.ok [5]], counter := 2, trace := [] }

/-- Behaviour whose every poll completes immediately, doing nothing. -/
def behReady : Behavior := fun _ _ =>
  { ops := [], spawns := [], pending := false }

/-- Behaviour whose every poll yields without registering anything. -/
def behPend : Behavior := fun _ _ =>
  { ops := [], spawns := [], pending := true }

/-- One freshly injected task, nothing else. -/
def stOne : LoopState :=
  { injector := [⟨0, 0, 0⟩], waiting := [], reg := ⟨none⟩, oracle := [],
    counter := 1, trace := [] }

/-- The `stOne` state after its single task has been polled to completion. -/
def stOneDone : LoopState :=
  { injector := [], waiting := [], reg := ⟨none⟩, oracle := [],
    counter := 1, trace := [Ev.polled 0 0 0] }

/-- A state with no tasks at all. -/
def stEmpty : LoopState :=
  { injector := [], waiting := [], reg := ⟨none⟩, oracle := [],
    counter := 1, trace := [] }

/-- Two freshly injected tasks. -/
def stC3 : LoopState :=
  { injector := [⟨0, 0, 0⟩, ⟨1, 1, 0⟩], waiting := [], reg := ⟨none⟩,
    oracle := [], counter := 2, trace := [] }

/-- A state with one task parked under token 3 and a trace that already
mentions serial 0. -/
def stC6 : LoopState :=
  { injector := [], waiting := [(3, ⟨0, 0, 1⟩)], reg := ⟨none⟩, oracle := [],
    counter := 1, trace := [Ev.polled 9 0 9] }

/-- Scenario: the root task spawns a sibling with id 7 and then yields. -/
def behC7 : Behavior := fun id n =>
  match id, n with
  | 0, 0 => { ops := [], spawns := [7], pending := true }
  | _, _ => { ops := [], spawns := [], pending := false }

/-- Scenario: task 0 registers token 5 and yields. -/
def behC9 : Behavior := fun id n =>
  match id, n with
  | 0, 0 => { ops := [RegOp.register 5], spawns := [], pending := true }
  | _, _ => { ops := [], spawns := [], pending := false }

/-- A task with id 9 and serial 0 is parked under token 5; its first poll is
already on record. -/
def stC9 : LoopState :=
  { injector := [], waiting := [(5, ⟨9, 0, 1⟩)], reg := ⟨none⟩, oracle := [],
    counter := 2, trace := [Ev.polled 9 0 0] }

/-- The freshly stolen task that will replace the parked one. -/
def tC9 : Task := ⟨0, 1, 0⟩

/-! ## Basic facts about the model's building blocks -/

theorem spawnTasks_length (ids : List Nat) (c : Nat) :
    (spawnTasks ids c).length = ids.length := by
  induction ids generalizing c with
  | nil => rfl
  | cons i rest ih => simp [spawnTasks, ih]

theorem spawnTasks_serial_bound {ids : List Nat} {c x : Nat}
    (h : x ∈ (spawnTasks ids c).map Task.serial) :
    c ≤ x ∧ x < c + ids.length := by
  induction ids generalizing c with
  | nil => simp [spawnTasks] at h
  | cons i rest ih =>
    simp only [spawnTasks, List.map_cons, List.mem_cons] at h
    simp only [List.length_cons]
    rcases h with h | h
    · subst h; omega
    · have h2 := ih (c := c + 1) h
      omega

theorem pollTask_trace (beh : Behavior) (t : Task) (st : LoopState) :
    (pollTask beh t st).trace = st.trace ++ [Ev.polled t.id t.serial t.polls] := by
  unfold pollTask
  dsimp only
  split
  · split <;> rfl
  · rfl

theorem pollTask_counter (beh : Behavior) (t : Task) (st : LoopState) :
    (pollTask beh t st).counter = st.counter + (beh t.id t.polls).spawns.length := by
  unfold pollTask
  dsimp only
  split
  · split <;> rfl
  · rfl

theorem pollTask_counter_le (beh : Behavior) (t : Task) (st : LoopState) :
    st.counter ≤ (pollTask beh t st).counter := by
  rw [pollTask_counter]; exact Nat.le_add_right _ _

theorem pollTask_serials {beh : Behavior} {t : Task} {st : LoopState} {x : Nat}
    (h : x ∈ serialsOf (pollTask beh t st)) :
    x ∈ serialsOf st ∨ x = t.serial ∨
      (st.counter ≤ x ∧ x < st.counter + (beh t.id t.polls).spawns.length) := by
  unfold pollTask at h
  dsimp only at h
  have hspawn : ∀ y, y ∈ (spawnTasks (beh t.id t.polls).spawns st.counter).map Task.serial →
      st.counter ≤ y ∧ y < st.counter + (beh t.id t.polls).spawns.length :=
    fun y hy => spawnTasks_serial_bound hy
  split at h
  · split at h
    · simp only [serialsOf, insertW, List.map_append, List.mem_append, List.map_cons,
        List.mem_cons, List.mem_map, List.mem_filter] at h
      rcases h with (h | h) | h | ⟨p, ⟨hp, _⟩, hps⟩
      · exact Or.inl (by simp [serialsOf, List.mem_append, h])
      · exact Or.inr (Or.inr (hspawn x (List.mem_map.mpr (by
          simpa using h))))
      · exact Or.inr (Or.inl h)
      · exact Or.inl (by
          simp only [serialsOf, List.mem_append, List.mem_map]
          exact Or.inr ⟨p, hp, hps⟩)
    · simp only [serialsOf, List.map_append, List.mem_append] at h
      rcases h with (h | h) | h
      · exact Or.inl (by simp [serialsOf, List.mem_append, h])
      · exact Or.inr (Or.inr (hspawn x h))
      · exact Or.inl (by simp [serialsOf, List.mem_append, h])
  · simp only [serialsOf, List.map_append, List.mem_append] at h
    rcases h with (h | h) | h
    · exact Or.inl (by simp [serialsOf, List.mem_append, h])
    · exact Or.inr (Or.inr (hspawn x h))
    · exact Or.inl (by simp [serialsOf, List.mem_append, h])

theorem pollTask_bounded {beh : Behavior} {t : Task} {st : LoopState}
    (hB : Bounded st) (ht : t.serial < st.counter) :
    Bounded (pollTask beh t st) := by
  intro x hx
  rw [pollTask_counter]
  rcases pollTask_serials hx with h | h | h
  · exact Nat.lt_of_lt_of_le (hB x h) (Nat.le_add_right _ _)
  · exact Nat.lt_of_lt_of_le (h ▸ ht) (Nat.le_add_right _ _)
  · exact h.2

theorem pollTask_avoids {beh : Behavior} {t : Task} {st : LoopState} {s : Nat}
    (hs : s < st.counter) (hns : s ∉ serialsOf st) (hts : t.serial ≠ s) :
    s ∉ serialsOf (pollTask beh t st) := by
  intro hmem
  rcases pollTask_serials hmem with h | h | h
  · exact hns h
  · exact hts h.symm
  · exact Nat.lt_irrefl s (Nat.lt_of_lt_of_le hs h.1)

theorem serialsOf_tail {st : LoopState} {t : Task} {rest : List Task}
    (hinj : st.injector = t :: rest) {x : Nat}
    (h : x ∈ serialsOf { st with injector := rest }) : x ∈ serialsOf st := by
  simp only [serialsOf, List.mem_append, List.mem_map] at h ⊢
  rw [hinj]
  rcases h with ⟨a, ha, hax⟩ | h
  · exact Or.inl ⟨a, List.mem_cons_of_mem _ ha, hax⟩
  · exact Or.inr h

theorem head_serial_mem {st : LoopState} {t : Task} {rest : List Task}
    (hinj : st.injector = t :: rest) : t.serial ∈ serialsOf st := by
  simp only [serialsOf, List.mem_append, List.mem_map]
  exact Or.inl ⟨t, by simp [hinj], rfl⟩

/-- Once a serial number `s` is outside the loop's state (and below the spawn
counter, so no fresh task can receive it), the whole drain phase preserves
that, and adds no trace event mentioning `s`. -/
theorem drain_avoids (beh : Behavior) :
    ∀ (df : Nat) (st : LoopState) (s : Nat), Bounded st → s < st.counter →
      s ∉ serialsOf st →
      Bounded (drain beh df st).1 ∧ s < (drain beh df st).1.counter ∧
        s ∉ serialsOf (drain beh df st).1 ∧
        (∀ id p, Ev.polled id s p ∈ (drain beh df st).1.trace →
          Ev.polled id s p ∈ st.trace) := by
  intro df
  induction df with
  | zero => exact fun st s hB hs hns => ⟨hB, hs, hns, fun _ _ h => by simpa [drain] using h⟩
  | succ df ih =>
    intro st s hB hs hns
    match hinj : st.injector with
    | [] =>
      refine ⟨?_, ?_, ?_, ?_⟩ <;> simp [drain, hinj, hB, hs, hns]
    | t :: rest =>
      have hts : t.serial ∈ serialsOf st := head_serial_mem hinj
      have htc : t.serial < st.counter := hB _ hts
      have htns : t.serial ≠ s := fun h => hns (h ▸ hts)
      have hB0 : Bounded { st with injector := rest } :=
        fun x hx => hB x (serialsOf_tail hinj hx)
      have hns0 : s ∉ serialsOf { st with injector := rest } :=
        fun h => hns (serialsOf_tail hinj h)
      have hB1 : Bounded (pollTask beh t { st with injector := rest }) :=
        pollTask_bounded hB0 htc
      have hs1 : s < (pollTask beh t { st with injector := rest }).counter :=
        Nat.lt_of_lt_of_le hs (pollTask_counter_le beh t { st with injector := rest })
      have hns1 : s ∉ serialsOf (pollTask beh t { st with injector := rest }) :=
        pollTask_avoids hs hns0 htns
      have hstep := ih (pollTask beh t { st with injector := rest }) s hB1 hs1 hns1
      have hdr : drain beh (df + 1) st =
          drain beh df (pollTask beh t { st with injector := rest }) := by
        simp [drain, hinj]
      rw [hdr]
      refine ⟨hstep.1, hstep.2.1, hstep.2.2.1, fun id p h => ?_⟩
      have h2 := hstep.2.2.2 id p h
      rw [pollTask_trace] at h2
      rcases List.mem_append.mp h2 with h3 | h3
      · exact h3
      · simp only [List.mem_singleton, Ev.polled.injEq] at h3
        exact absurd h3.2.1.symm htns

/-- The drain phase only extends the trace. -/
theorem drain_trace_extend (beh : Behavior) :
    ∀ (df : Nat) (st : LoopState),
      ∃ l, (drain beh df st).1.trace = st.trace ++ l := by
  intro df
  induction df with
  | zero => exact fun st => ⟨[], by simp [drain]⟩
  | succ df ih =>
    intro st
    match hinj : st.injector with
    | [] => exact ⟨[], by simp [drain, hinj]⟩
    | t :: rest =>
      obtain ⟨l, hl⟩ := ih (pollTask beh t { st with injector := rest })
      refine ⟨Ev.polled t.id t.serial t.polls :: l, ?_⟩
      rw [show drain beh (df + 1) st =
          drain beh df (pollTask beh t { st with injector := rest }) by
        simp [drain, hinj]]
      rw [hl, pollTask_trace]
      simp

/-- The drain phase performs no blocking wait. -/
theorem drain_no_wait (beh : Behavior) :
    ∀ (df : Nat) (st : LoopState),
      Ev.waited ∈ (drain beh df st).1.trace → Ev.waited ∈ st.trace := by
  intro df
  induction df with
  | zero => intro st h; simpa [drain] using h
  | succ df ih =>
    intro st h
    match hinj : st.injector with
    | [] => simpa [drain, hinj] using h
    | t :: rest =>
      rw [show drain beh (df + 1) st =
          drain beh df (pollTask beh t { st with injector := rest }) by
        simp [drain, hinj]] at h
      have h2 := ih _ h
      rw [pollTask_trace] at h2
      rcases List.mem_append.mp h2 with h3 | h3
      · exact h3
      · simp at h3

theorem lookupW_mem {tok : Token} {w : List (Token × Task)} {t : Task}
    (h : lookupW tok w = some t) : (tok, t) ∈ w := by
  unfold lookupW at h
  match hf : w.find? (fun q => q.1 == tok) with
  | none => rw [hf] at h; simp at h
  | some q =>
    rw [hf] at h
    simp only [Option.map_some'] at h
    have hq : q ∈ w := List.mem_of_find?_eq_some hf
    have hk : (q.1 == tok) = true := List.find?_some (p := fun r : Token × Task => r.1 == tok) hf
    have hk' : q.1 = tok := by simpa using hk
    have hqe : q = (tok, t) := by
      cases q; simp_all
    exact hqe ▸ hq

theorem serialsOf_removeW {st : LoopState} {tok : Token} {x : Nat}
    (h : x ∈ serialsOf { st with waiting := removeW tok st.waiting }) :
    x ∈ serialsOf st := by
  simp only [serialsOf, removeW, List.mem_append, List.mem_map, List.mem_filter] at h ⊢
  rcases h with h | ⟨p, ⟨hp, _⟩, hps⟩
  · exact Or.inl h
  · exact Or.inr ⟨p, hp, hps⟩

theorem waiting_serial_mem {st : LoopState} {tok : Token} {t : Task}
    (h : (tok, t) ∈ st.waiting) : t.serial ∈ serialsOf st := by
  simp only [serialsOf, List.mem_append, List.mem_map]
  exact Or.inr ⟨(tok, t), h, rfl⟩

/-- The wake phase counterpart of `drain_avoids`. -/
theorem wake_avoids (beh : Behavior) :
    ∀ (events : List Token) (st : LoopState) (s : Nat), Bounded st →
      s < st.counter → s ∉ serialsOf st →
      Bounded (wakeTasks beh events st) ∧ s < (wakeTasks beh events st).counter ∧
        s ∉ serialsOf (wakeTasks beh events st) ∧
        (∀ id p, Ev.polled id s p ∈ (wakeTasks beh events st).trace →
          Ev.polled id s p ∈ st.trace) := by
  intro events
  induction events with
  | nil => exact fun st s hB hs hns => ⟨hB, hs, hns, fun _ _ h => by simpa [wakeTasks] using h⟩
  | cons tok rest ih =>
    intro st s hB hs hns
    match hf : lookupW tok st.waiting with
    | none =>
      have hw : wakeTasks beh (tok :: rest) st = wakeTasks beh rest st := by
        simp [wakeTasks, hf]
      rw [hw]
      exact ih st s hB hs hns
    | some t =>
      have hmem : (tok, t) ∈ st.waiting := lookupW_mem hf
      have hts : t.serial ∈ serialsOf st := waiting_serial_mem hmem
      have htc : t.serial < st.counter := hB _ hts
      have htns : t.serial ≠ s := fun h => hns (h ▸ hts)
      have hB0 : Bounded { st with waiting := removeW tok st.waiting } :=
        fun x hx => hB x (serialsOf_removeW hx)
      have hns0 : s ∉ serialsOf { st with waiting := removeW tok st.waiting } :=
        fun h => hns (serialsOf_removeW h)
      have hB1 := @pollTask_bounded beh t { st with waiting := removeW tok st.waiting } hB0 htc
      have hs1 : s < (pollTask beh t { st with waiting := removeW tok st.waiting }).counter :=
        Nat.lt_of_lt_of_le hs
          (pollTask_counter_le beh t { st with waiting := removeW tok st.waiting })
      have hns1 := @pollTask_avoids beh t { st with waiting := removeW tok st.waiting } s
        hs hns0 htns
      have hw : wakeTasks beh (tok :: rest) st =
          wakeTasks beh rest (pollTask beh t { st with waiting := removeW tok st.waiting }) := by
        simp [wakeTasks, hf]
      rw [hw]
      have hstep := ih (pollTask beh t { st with waiting := removeW tok st.waiting }) s hB1 hs1 hns1
      refine ⟨hstep.1, hstep.2.1, hstep.2.2.1, fun id p h => ?_⟩
      have h2 := hstep.2.2.2 id p h
      rw [pollTask_trace] at h2
      rcases List.mem_append.mp h2 with h3 | h3
      · exact h3
      · simp only [List.mem_singleton, Ev.polled.injEq] at h3
        exact absurd h3.2.1.symm htns

/-- The wake phase only extends the trace. -/
theorem wake_trace_extend (beh : Behavior) :
    ∀ (events : List Token) (st : LoopState),
      ∃ l, (wakeTasks beh events st).trace = st.trace ++ l := by
  intro events
  induction events with
  | nil => exact fun st => ⟨[], by simp [wakeTasks]⟩
  | cons tok rest ih =>
    intro st
    match hf : lookupW tok st.waiting with
    | none =>
      obtain ⟨l, hl⟩ := ih st
      exact ⟨l, by rw [show wakeTasks beh (tok :: rest) st = wakeTasks beh rest st by
        simp [wakeTasks, hf]]; exact hl⟩
    | some t =>
      obtain ⟨l, hl⟩ := ih (pollTask beh t { st with waiting := removeW tok st.waiting })
      refine ⟨Ev.polled t.id t.serial t.polls :: l, ?_⟩
      rw [show wakeTasks beh (tok :: rest) st =
          wakeTasks beh rest (pollTask beh t { st with waiting := removeW tok st.waiting }) by
        simp [wakeTasks, hf]]
      rw [hl, pollTask_trace]
      simp

/-! Branch equations for one iteration of `runLoop`. -/

theorem runLoop_succ_stuck_drain {beh : Behavior} {df fuel : Nat} {st : LoopState}
    (h : (drain beh df st).2 = false) :
    runLoop beh df (fuel + 1) st = .stuck (drain beh df st).1 := by
  simp [runLoop, h]

theorem runLoop_succ_ok {beh : Behavior} {df fuel : Nat} {st : LoopState}
    (h : (drain beh df st).2 = true)
    (hW : (drain beh df st).1.waiting.isEmpty = true) :
    runLoop beh df (fuel + 1) st = .ok (drain beh df st).1 := by
  simp [runLoop, h, hW]

theorem runLoop_succ_oracle_nil {beh : Behavior} {df fuel : Nat} {st : LoopState}
    (h : (drain beh df st).2 = true)
    (hW : (drain beh df st).1.waiting.isEmpty = false)
    (hor : (drain beh df st).1.oracle = []) :
    runLoop beh df (fuel + 1) st = .stuck (drain beh df st).1 := by
  simp [runLoop, h, hW, hor]

theorem runLoop_succ_err {beh : Behavior} {df fuel : Nat} {st : LoopState}
    {e : IoError} {rest : List (Except IoError (List Token))}
    (h : (drain beh df st).2 = true)
    (hW : (drain beh df st).1.waiting.isEmpty = false)
    (hor : (drain beh df st).1.oracle = .error e :: rest) :
    runLoop beh df (fuel + 1) st =
      .ioError e { (drain beh df st).1 with
        oracle := rest,
        trace := (drain beh df st).1.trace ++ [Ev.waited] } := by
  simp [runLoop, h, hW, hor]

theorem runLoop_succ_wake {beh : Behavior} {df fuel : Nat} {st : LoopState}
    {events : List Token} {rest : List (Except IoError (List Token))}
    (h : (drain beh df st).2 = true)
    (hW : (drain beh df st).1.waiting.isEmpty = false)
    (hor : (drain beh df st).1.oracle = .ok events :: rest) :
    runLoop beh df (fuel + 1) st =
      runLoop beh df fuel (wakeTasks beh events
        { (drain beh df st).1 with
          oracle := rest,
          trace := (drain beh df st).1.trace ++ [Ev.waited] }) := by
  simp [runLoop, h, hW, hor]

/-- A serial number outside the state (and below the counter) is never polled
by any continuation of the run loop: the final trace mentions it only where
the starting trace already did.  This is the "never polled again" half of the
silent-drop behaviour. -/
theorem runLoop_avoids (beh : Behavior) (df : Nat) :
    ∀ (fuel : Nat) (st : LoopState) (s : Nat), Bounded st → s < st.counter →
      s ∉ serialsOf st →
      ∀ id p, Ev.polled id s p ∈ ((runLoop beh df fuel st).state).trace →
        Ev.polled id s p ∈ st.trace := by
  intro fuel
  induction fuel with
  | zero => intro st s _ _ _ id p h; simpa [runLoop, Outcome.state] using h
  | succ fuel ih =>
    intro st s hB hs hns id p h
    obtain ⟨hBd, hsd, hnsd, htrd⟩ := drain_avoids beh df st s hB hs hns
    match hd2 : (drain beh df st).2 with
    | false =>
      rw [runLoop_succ_stuck_drain hd2] at h
      exact htrd id p h
    | true =>
      match hW : (drain beh df st).1.waiting.isEmpty with
      | true =>
        rw [runLoop_succ_ok hd2 hW] at h
        exact htrd id p h
      | false =>
        match hor : (drain beh df st).1.oracle with
        | [] =>
          rw [runLoop_succ_oracle_nil hd2 hW hor] at h
          exact htrd id p h
        | .error e :: rest =>
          rw [runLoop_succ_err hd2 hW hor] at h
          simp only [Outcome.state] at h
          rcases List.mem_append.mp h with h3 | h3
          · exact htrd id p h3
          · simp at h3
        | .ok events :: rest =>
          rw [runLoop_succ_wake hd2 hW hor] at h
          set st2 : LoopState := { (drain beh df st).1 with
            oracle := rest,
            trace := (drain beh df st).1.trace ++ [Ev.waited] } with hst2
          have hB2 : Bounded st2 := fun x hx => hBd x hx
          have hs2 : s < st2.counter := hsd
          have hns2 : s ∉ serialsOf st2 := hnsd
          obtain ⟨hBw, hsw, hnsw, htrw⟩ := wake_avoids beh events st2 s hB2 hs2 hns2
          have h4 := ih (wakeTasks beh events st2) s hBw hsw hnsw id p h
          have h5 := htrw id p h4
          rcases List.mem_append.mp h5 with h6 | h6
          · exact htrd id p h6
          · simp at h6

/-! More facts about single polls and phase traces. -/

theorem pollTask_injector (beh : Behavior) (t : Task) (st : LoopState) :
    (pollTask beh t st).injector =
      st.injector ++ spawnTasks (beh t.id t.polls).spawns st.counter := by
  unfold pollTask
  dsimp only
  split
  · split <;> rfl
  · rfl

theorem pollTask_reg (beh : Behavior) (t : Task) (st : LoopState) :
    (pollTask beh t st).reg = applyRegOps (beh t.id t.polls).ops st.reg := by
  unfold pollTask
  dsimp only
  split
  · split <;> rfl
  · rfl

/-- A poll that returns `Pending` while the registry's global `last_token`
record is `Some tok` parks the (advanced) task under `tok`, replacing any
task already parked there. -/
theorem pollTask_waiting_pending_some {beh : Behavior} {t : Task} {st : LoopState}
    {tok : Token} (hp : (beh t.id t.polls).pending = true)
    (hl : (applyRegOps (beh t.id t.polls).ops st.reg).last_token = some tok) :
    (pollTask beh t st).waiting =
      insertW tok { t with polls := t.polls + 1 } st.waiting := by
  unfold pollTask
  simp only [hp, RegistryInner.last, hl]
  simp

/-- A poll that returns `Pending` while `last_token` is `None` leaves the
parked-task map untouched: the task is dropped. -/
theorem pollTask_waiting_pending_none {beh : Behavior} {t : Task} {st : LoopState}
    (hp : (beh t.id t.polls).pending = true)
    (hl : (applyRegOps (beh t.id t.polls).ops st.reg).last_token = none) :
    (pollTask beh t st).waiting = st.waiting := by
  unfold pollTask
  simp only [hp, RegistryInner.last, hl]
  simp

/-- A poll that completes never touches the parked-task map. -/
theorem pollTask_waiting_ready {beh : Behavior} {t : Task} {st : LoopState}
    (hp : (beh t.id t.polls).pending = false) :
    (pollTask beh t st).waiting = st.waiting := by
  unfold pollTask
  simp only [hp]
  rfl

/-- When a poll does not park its task, the serial numbers afterwards are the
old ones plus the freshly spawned block. -/
theorem pollTask_serials_unparked {beh : Behavior} {t : Task} {st : LoopState}
    (hw : (pollTask beh t st).waiting = st.waiting) {x : Nat}
    (h : x ∈ serialsOf (pollTask beh t st)) :
    x ∈ serialsOf st ∨
      (st.counter ≤ x ∧ x < st.counter + (beh t.id t.polls).spawns.length) := by
  have hrw : serialsOf (pollTask beh t st) =
      (st.injector ++ spawnTasks (beh t.id t.polls).spawns st.counter).map Task.serial ++
        st.waiting.map (fun p => p.2.serial) := by
    unfold serialsOf
    rw [pollTask_injector, hw]
  rw [hrw] at h
  simp only [List.map_append, List.mem_append] at h
  rcases h with (h | h) | h
  · exact Or.inl (by simp [serialsOf, List.mem_append, h])
  · exact Or.inr (spawnTasks_serial_bound h)
  · exact Or.inl (by simp [serialsOf, List.mem_append, h])

/-- The run loop only extends the trace. -/
theorem runLoop_trace_extend (beh : Behavior) (df : Nat) :
    ∀ (fuel : Nat) (st : LoopState),
      ∃ l, ((runLoop beh df fuel st).state).trace = st.trace ++ l := by
  intro fuel
  induction fuel with
  | zero => exact fun st => ⟨[], by simp [runLoop, Outcome.state]⟩
  | succ fuel ih =>
    intro st
    obtain ⟨ld, hld⟩ := drain_trace_extend beh df st
    match hd2 : (drain beh df st).2 with
    | false => exact ⟨ld, by rw [runLoop_succ_stuck_drain hd2, Outcome.state, hld]⟩
    | true =>
      match hW : (drain beh df st).1.waiting.isEmpty with
      | true => exact ⟨ld, by rw [runLoop_succ_ok hd2 hW, Outcome.state, hld]⟩
      | false =>
        match hor : (drain beh df st).1.oracle with
        | [] => exact ⟨ld, by rw [runLoop_succ_oracle_nil hd2 hW hor, Outcome.state, hld]⟩
        | .error e :: rest =>
          refine ⟨ld ++ [Ev.waited], ?_⟩
          rw [runLoop_succ_err hd2 hW hor]
          simp only [Outcome.state]
          rw [hld]
          simp
        | .ok events :: rest =>
          obtain ⟨lw, hlw⟩ := wake_trace_extend beh events
            { (drain beh df st).1 with
              oracle := rest,
              trace := (drain beh df st).1.trace ++ [Ev.waited] }
          obtain ⟨lr, hlr⟩ := ih (wakeTasks beh events
            { (drain beh df st).1 with
              oracle := rest,
              trace := (drain beh df st).1.trace ++ [Ev.waited] })
          refine ⟨ld ++ [Ev.waited] ++ lw ++ lr, ?_⟩
          rw [runLoop_succ_wake hd2 hW hor, hlr, hlw]
          dsimp only
          rw [hld]
          simp

/-- After one iteration's drain phase, the final trace of the whole run is an
extension of the drain phase's trace. -/
theorem runLoop_after_drain (beh : Behavior) (df fuel : Nat) (st : LoopState) :
    ∃ l, ((runLoop beh df (fuel + 1) st).state).trace =
      (drain beh df st).1.trace ++ l := by
  match hd2 : (drain beh df st).2 with
  | false => exact ⟨[], by rw [runLoop_succ_stuck_drain hd2, Outcome.state]; simp⟩
  | true =>
    match hW : (drain beh df st).1.waiting.isEmpty with
    | true => exact ⟨[], by rw [runLoop_succ_ok hd2 hW, Outcome.state]; simp⟩
    | false =>
      match hor : (drain beh df st).1.oracle with
      | [] => exact ⟨[], by rw [runLoop_succ_oracle_nil hd2 hW hor, Outcome.state]; simp⟩
      | .error e :: rest =>
        exact ⟨[Ev.waited], by rw [runLoop_succ_err hd2 hW hor, Outcome.state]⟩
      | .ok events :: rest =>
        obtain ⟨lw, hlw⟩ := wake_trace_extend beh events
          { (drain beh df st).1 with
            oracle := rest,
            trace := (drain beh df st).1.trace ++ [Ev.waited] }
        obtain ⟨lr, hlr⟩ := runLoop_trace_extend beh df fuel (wakeTasks beh events
          { (drain beh df st).1 with
            oracle := rest,
            trace := (drain beh df st).1.trace ++ [Ev.waited] })
        refine ⟨[Ev.waited] ++ lw ++ lr, ?_⟩
        rw [runLoop_succ_wake hd2 hW hor, hlr, hlw]
        dsimp only
        simp

/-- Every task sitting in the injector gets polled by the drain phase, as long
as the fuel covers its queue position: spawned tasks join only at the back, so
positions ahead of it never grow. -/
theorem drain_polls_index (beh : Behavior) :
    ∀ (fuel : Nat) (st : LoopState) (j : Nat) (t : Task),
      st.injector[j]? = some t → j < fuel →
      Ev.polled t.id t.serial t.polls ∈ (drain beh fuel st).1.trace := by
  intro fuel
  induction fuel with
  | zero => intro st j t _ hj; omega
  | succ fuel ih =>
    intro st j t hget hj
    match hinj : st.injector with
    | [] => rw [hinj] at hget; simp at hget
    | t0 :: rest =>
      have hdr : drain beh (fuel + 1) st =
          drain beh fuel (pollTask beh t0 { st with injector := rest }) := by
        simp [drain, hinj]
      rw [hdr]
      match j with
      | 0 =>
        have ht0 : t = t0 := by rw [hinj] at hget; simpa using hget.symm
        subst ht0
        obtain ⟨l, hl⟩ := drain_trace_extend beh fuel
          (pollTask beh t { st with injector := rest })
        rw [hl, pollTask_trace]
        simp
      | j + 1 =>
        have hget' : (pollTask beh t0 { st with injector := rest }).injector[j]? =
            some t := by
          rw [pollTask_injector]
          have hj2 : j < rest.length := by
            have := hget
            rw [hinj] at this
            have hlt : j + 1 < (t0 :: rest).length := by
              by_contra hc
              rw [List.getElem?_eq_none (by omega)] at this
              simp at this
            simpa using hlt
          rw [List.getElem?_append_left (by simpa using hj2)]
          have := hget
          rw [hinj] at this
          simpa using this
        exact ih _ j t hget' (by omega)

theorem beforeFirstWait_append {l1 l2 : List Ev} (h : Ev.waited ∉ l1) :
    beforeFirstWait (l1 ++ l2) = l1 ++ beforeFirstWait l2 := by
  induction l1 with
  | nil => rfl
  | cons e rest ih =>
    have he : (e != Ev.waited) = true := by
      simp only [bne_iff_ne, ne_eq]
      intro hh
      exact h (hh ▸ List.mem_cons_self e rest)
    have hr : Ev.waited ∉ rest := fun hh => h (List.mem_cons_of_mem e hh)
    simp only [List.cons_append, beforeFirstWait, List.takeWhile_cons, he, if_true]
    simpa [beforeFirstWait] using ih hr

/-- If every poll completes immediately, the drain phase never touches the
parked-task map and never waits. -/
theorem drain_allready {beh : Behavior}
    (hready : ∀ id n, (beh id n).pending = false) :
    ∀ (fuel : Nat) (st : LoopState),
      (drain beh fuel st).1.waiting = st.waiting ∧
        (drain beh fuel st).1.trace = st.trace ++
          ((drain beh fuel st).1.trace.drop st.trace.length) := by
  intro fuel
  induction fuel with
  | zero => intro st; constructor <;> simp [drain]
  | succ fuel ih =>
    intro st
    match hinj : st.injector with
    | [] => constructor <;> simp [drain, hinj]
    | t :: rest =>
      have hdr : drain beh (fuel + 1) st =
          drain beh fuel (pollTask beh t { st with injector := rest }) := by
        simp [drain, hinj]
      rw [hdr]
      have h1 := (ih (pollTask beh t { st with injector := rest })).1
      rw [h1, pollTask_waiting_ready (hready t.id t.polls)]
      refine ⟨rfl, ?_⟩
      obtain ⟨l, hl⟩ := drain_trace_extend beh fuel
        (pollTask beh t { st with injector := rest })
      rw [hl, pollTask_trace]
      simp

/-! Facts about the parked-task map seen as a map. -/

theorem insertW_keys_nodup {tok : Token} {t : Task} {w : List (Token × Task)}
    (h : (w.map Prod.fst).Nodup) :
    ((insertW tok t w).map Prod.fst).Nodup := by
  unfold insertW
  simp only [List.map_cons, List.nodup_cons]
  constructor
  · intro hmem
    simp only [List.mem_map, List.mem_filter] at hmem
    obtain ⟨p, ⟨_, hp⟩, hfst⟩ := hmem
    simp only [decide_eq_true_eq] at hp
    exact hp hfst
  · exact List.Nodup.sublist (List.Sublist.map _ (List.filter_sublist w)) h

theorem lookupW_insertW (tok : Token) (t : Task) (w : List (Token × Task)) :
    lookupW tok (insertW tok t w) = some t := by
  simp [lookupW, insertW, List.find?_cons_of_pos]

/-- With pairwise-distinct serial numbers, a parked entry other than the one
being replaced keeps a serial different from every survivor of the filter. -/
theorem replaced_not_in_filter {w : List (Token × Task)} {tok : Token} {told : Task}
    (hnd : (w.map (fun p => p.2.serial)).Nodup)
    (hmem : (tok, told) ∈ w) :
    ∀ p ∈ w.filter (fun p => p.1 ≠ tok), p.2.serial ≠ told.serial := by
  intro p hp he
  have hpw : p ∈ w := List.mem_of_mem_filter hp
  have hpk : p.1 ≠ tok := by
    have := List.of_mem_filter hp
    simpa using this
  have hpe : p = (tok, told) :=
    List.inj_on_of_nodup_map hnd hpw hmem he
  exact hpk (by rw [hpe])

/-- If no poll ever spawns, the drain phase finishes whenever the fuel covers
the queue length. -/
theorem drain_done_nospawn {beh : Behavior}
    (hsp : ∀ id n, (beh id n).spawns = []) :
    ∀ (fuel : Nat) (st : LoopState), st.injector.length ≤ fuel →
      (drain beh fuel st).2 = true := by
  intro fuel
  induction fuel with
  | zero =>
    intro st h
    have : st.injector = [] := List.eq_nil_of_length_eq_zero (Nat.le_zero.mp h)
    simp [drain, this]
  | succ fuel ih =>
    intro st h
    match hinj : st.injector with
    | [] => simp [drain, hinj]
    | t :: rest =>
      have hdr : drain beh (fuel + 1) st =
          drain beh fuel (pollTask beh t { st with injector := rest }) := by
        simp [drain, hinj]
      rw [hdr]
      apply ih
      rw [pollTask_injector]
      simp only [hsp, spawnTasks, List.append_nil]
      have : (t :: rest).length ≤ fuel + 1 := hinj ▸ h
      simpa using Nat.le_of_succ_le_succ (by simpa using this)

/-- If the run loop breaks with `Ok(())`, the state it exits from has an empty
parked-task map. -/
theorem runLoop_ok_waiting_empty (beh : Behavior) (df : Nat) :
    ∀ (fuel : Nat) (st stF : LoopState),
      runLoop beh df fuel st = .ok stF → stF.waiting = [] := by
  intro fuel
  induction fuel with
  | zero => intro st stF h; simp [runLoop] at h
  | succ fuel ih =>
    intro st stF h
    match hd2 : (drain beh df st).2 with
    | false => rw [runLoop_succ_stuck_drain hd2] at h; simp at h
    | true =>
      match hW : (drain beh df st).1.waiting.isEmpty with
      | true =>
        rw [runLoop_succ_ok hd2 hW] at h
        have hst : stF = (drain beh df st).1 := by
          cases h; rfl
        rw [hst]
        exact List.isEmpty_iff.mp hW
      | false =>
        match hor : (drain beh df st).1.oracle with
        | [] => rw [runLoop_succ_oracle_nil hd2 hW hor] at h; simp at h
        | .error e :: rest => rw [runLoop_succ_err hd2 hW hor] at h; simp at h
        | .ok events :: rest =>
          rw [runLoop_succ_wake hd2 hW hor] at h
          exact ih _ stF h

/-- A parked task whose token never appears in the readiness batch is not
polled by the wake phase (assuming pairwise-distinct serials among parked
tasks, which unique serial assignment guarantees). -/
theorem wake_unfired (beh : Behavior) :
    ∀ (events : List Token) (st : LoopState) (s : Nat),
      ((st.waiting.map (fun p => p.2.serial)).Nodup) →
      (∀ tok t, (tok, t) ∈ st.waiting → t.serial = s → tok ∉ events) →
      ∀ id p, Ev.polled id s p ∈ (wakeTasks beh events st).trace →
        Ev.polled id s p ∈ st.trace := by
  intro events
  induction events with
  | nil => intro st s _ _ id p h; simpa [wakeTasks] using h
  | cons tok rest ih =>
    intro st s hnd hun id p h
    match hf : lookupW tok st.waiting with
    | none =>
      rw [show wakeTasks beh (tok :: rest) st = wakeTasks beh rest st by
        simp [wakeTasks, hf]] at h
      exact ih st s hnd (fun tk t hm hs => fun hmem =>
        hun tk t hm hs (List.mem_cons_of_mem _ hmem)) id p h
    | some t1 =>
      have hmem1 : (tok, t1) ∈ st.waiting := lookupW_mem hf
      have ht1s : t1.serial ≠ s := by
        intro hh
        exact hun tok t1 hmem1 hh (List.mem_cons_self _ _)
      rw [show wakeTasks beh (tok :: rest) st =
          wakeTasks beh rest (pollTask beh t1 { st with waiting := removeW tok st.waiting }) by
        simp [wakeTasks, hf]] at h
      set stM : LoopState := { st with waiting := removeW tok st.waiting } with hstM
      have hndM : (stM.waiting.map (fun p => p.2.serial)).Nodup :=
        List.Nodup.sublist (List.Sublist.map _ (List.filter_sublist st.waiting)) hnd
      have hndP : (((pollTask beh t1 stM).waiting).map (fun p => p.2.serial)).Nodup := by
        match hp : (beh t1.id t1.polls).pending with
        | false => rw [pollTask_waiting_ready hp]; exact hndM
        | true =>
          match hl : (applyRegOps (beh t1.id t1.polls).ops stM.reg).last_token with
          | none => rw [pollTask_waiting_pending_none hp hl]; exact hndM
          | some tok2 =>
            rw [pollTask_waiting_pending_some hp hl]
            unfold insertW
            simp only [List.map_cons, List.nodup_cons]
            refine ⟨?_, List.Nodup.sublist
              (List.Sublist.map _ (List.filter_sublist stM.waiting)) hndM⟩
            intro hcon
            simp only [List.mem_map, List.mem_filter] at hcon
            obtain ⟨q, ⟨hq, _⟩, hqs⟩ := hcon
            have hqw : q ∈ st.waiting := List.mem_of_mem_filter hq
            have hq1 : q.2.serial = t1.serial := hqs
            have : q = (tok, t1) := by
              apply List.inj_on_of_nodup_map hnd hqw hmem1
              exact hq1
            have hqk : q.1 ≠ tok := by
              have := List.of_mem_filter hq
              simpa using this
            exact hqk (by rw [this])
      have hunP : ∀ tk t, (tk, t) ∈ (pollTask beh t1 stM).waiting → t.serial = s →
          tk ∉ rest := by
        intro tk t hm hs
        match hp : (beh t1.id t1.polls).pending with
        | false =>
          rw [pollTask_waiting_ready hp] at hm
          have hmw : (tk, t) ∈ st.waiting := List.mem_of_mem_filter hm
          exact fun hr => hun tk t hmw hs (List.mem_cons_of_mem _ hr)
        | true =>
          match hl : (applyRegOps (beh t1.id t1.polls).ops stM.reg).last_token with
          | none =>
            rw [pollTask_waiting_pending_none hp hl] at hm
            have hmw : (tk, t) ∈ st.waiting := List.mem_of_mem_filter hm
            exact fun hr => hun tk t hmw hs (List.mem_cons_of_mem _ hr)
          | some tok2 =>
            rw [pollTask_waiting_pending_some hp hl] at hm
            unfold insertW at hm
            rcases List.mem_cons.mp hm with hm1 | hm1
            · exfalso
              have : t.serial = t1.serial := by
                have := congrArg Prod.snd hm1
                simp at this
                rw [this]
              exact ht1s (this ▸ hs ▸ rfl)
            · have hmw : (tk, t) ∈ st.waiting :=
                List.mem_of_mem_filter (List.mem_of_mem_filter hm1)
              exact fun hr => hun tk t hmw hs (List.mem_cons_of_mem _ hr)
      have h2 := ih (pollTask beh t1 stM) s hndP hunP id p h
      rw [pollTask_trace] at h2
      rcases List.mem_append.mp h2 with h3 | h3
      · exact h3
      · simp only [List.mem_singleton, Ev.polled.injEq] at h3
        exact absurd h3.2.1.symm ht1s

/-! ## The claims -/

/-- Claim C4: for every poll of the I/O adapter's accept-stream or
buffered-read operation (with the registration step passing, i.e. already
registered or the register call succeeding): a successful OS call yields
`Ready` with the result; a would-block error yields `Pending` and is never
surfaced as an error; end-of-stream during accept yields the terminal
`Ready(None)`, distinct from an error; any other OS error is returned
immediately to the caller. -/
theorem c4_adapter_poll_outcomes {T A : Type} (w : WithRegistry T)
    (regRes : Except IoError Unit)
    (hreg : w.registered = true ∨ regRes = Except.ok ()) :
    (∀ p : A, (w.poll_next regRes (Except.ok p)).2 = .ready (some (.ok p))) ∧
    ((w.poll_next (A := A) regRes (.error ⟨.wouldBlock⟩)).2 = .pending) ∧
    ((w.poll_next (A := A) regRes (.error ⟨.unexpectedEof⟩)).2 = .ready none) ∧
    (∀ e : IoError, e.kind ≠ .wouldBlock → e.kind ≠ .unexpectedEof →
      (w.poll_next (A := A) regRes (.error e)).2 = .ready (some (.error e))) ∧
    (∀ n : Nat, (w.poll_read regRes (Except.ok n)).2 = .ready (.ok n)) ∧
    ((w.poll_read regRes (.error ⟨.wouldBlock⟩)).2 = .pending) ∧
    (∀ e : IoError, e.kind ≠ .wouldBlock →
      (w.poll_read regRes (.error e)).2 = .ready (.error e)) := by
  have hro : (if w.registered then Except.ok () else regRes) = Except.ok () := by
    rcases hreg with h | h
    · simp [h]
    · simp [h]
  refine ⟨?_, ?_, ?_, ?_, ?_, ?_, ?_⟩
  · intro p; unfold WithRegistry.poll_next; rw [hro]
  · unfold WithRegistry.poll_next; rw [hro]; simp
  · unfold WithRegistry.poll_next; rw [hro]; simp
  · intro e h1 h2; unfold WithRegistry.poll_next; rw [hro]; simp [h1, h2]
  · intro n; unfold WithRegistry.poll_read; rw [hro]
  · unfold WithRegistry.poll_read; rw [hro]; simp
  · intro e h1; unfold WithRegistry.poll_read; rw [hro]; simp [h1]

/-- Witness for C4 at a concrete unregistered adapter whose registration
succeeds. -/
theorem c4_adapter_poll_outcomes_witness :
    (WithRegistry.poll_next (T := Unit) (A := Nat) ⟨(), false⟩
        (Except.ok ()) (Except.ok 3)).2 = .ready (some (.ok 3)) ∧
    (WithRegistry.poll_next (T := Unit) (A := Nat) ⟨(), false⟩
        (Except.ok ()) (.error ⟨.wouldBlock⟩)).2 = .pending ∧
    (WithRegistry.poll_next (T := Unit) (A := Nat) ⟨(), false⟩
        (Except.ok ()) (.error ⟨.unexpectedEof⟩)).2 = .ready none ∧
    (WithRegistry.poll_read (T := Unit) ⟨(), false⟩
        (Except.ok ()) (.error ⟨.other 13⟩)).2 = .ready (.error ⟨.other 13⟩) := by
  have h := c4_adapter_poll_outcomes (T := Unit) (A := Nat) ⟨(), false⟩
    (Except.ok ()) (Or.inr rfl)
  exact ⟨h.1 3, h.2.1, h.2.2.1, h.2.2.2.2.2.2 ⟨.other 13⟩ (by decide)⟩

/-- Claim C5 as stated is false: `deregister` on a registered adapter does
not clear the `registered` flag — here a registered adapter still has
`registered = true` after a successful deregistration. -/
theorem c5_counterexample :
    ((WithRegistry.deregister (T := Unit) ⟨(), true⟩ (Except.ok ())).1).registered
      = true := rfl

/-- Claim C5, amended: `deregister` on a currently registered adapter issues
the deregistration request to the Registry and returns its outcome but leaves
the `registered` flag set; on a never-registered adapter it is a no-op that
returns success (and issues no request). -/
theorem c5_amended_deregister {T : Type} (w : WithRegistry T)
    (deregRes : Except IoError Unit) :
    (w.registered = true → w.deregister deregRes = (w, deregRes, true)) ∧
    (w.registered = false → w.deregister deregRes = (w, Except.ok (), false)) := by
  constructor
  · intro h; simp [WithRegistry.deregister, h]
  · intro h; simp [WithRegistry.deregister, h]

/-- Witness for the amended C5 on both a registered and an unregistered
adapter. -/
theorem c5_amended_deregister_witness :
    WithRegistry.deregister (T := Unit) ⟨(), true⟩ (Except.ok ()) =
      (⟨(), true⟩, Except.ok (), true) ∧
    WithRegistry.deregister (T := Unit) ⟨(), false⟩ (.error ⟨.other 0⟩) =
      (⟨(), false⟩, Except.ok (), false) :=
  ⟨(c5_amended_deregister ⟨(), true⟩ (Except.ok ())).1 rfl,
   (c5_amended_deregister ⟨(), false⟩ (.error ⟨.other 0⟩)).2 rfl⟩

/-- Claim C8: every operation through a task-held handle whose weak reference
is dead — `Registry::register`/`reregister`/`deregister` and
`Spawner::spawn` — hits the unchecked `.unwrap()` and panics (modelled as
`none`) instead of returning a typed error. -/
theorem c8_stale_handle_panics :
    ∀ (token : Token) (osRes : Except IoError Unit) (t : Task),
      Registry.register none token osRes = none ∧
      Registry.reregister none token osRes = none ∧
      Registry.deregister none osRes = none ∧
      Spawner.spawn (τ := Task) none t = none :=
  fun _ _ _ => ⟨rfl, rfl, rfl, rfl⟩

/-- Claim C10: `register`/`reregister` set `last_token := Some(token)` and
`deregister` sets `last_token := None` inside the same closure that performs
the OS call, so when the OS call fails the bookkeeping has already changed
and is not rolled back: the returned state carries the new record next to the
error. -/
theorem c10_bookkeeping_not_rolled_back :
    ∀ (s : RegistryInner) (token : Token) (e : IoError),
      Registry.register (some s) token (.error e) =
        some ({ last_token := some token }, .error e) ∧
      Registry.reregister (some s) token (.error e) =
        some ({ last_token := some token }, .error e) ∧
      Registry.deregister (some s) (.error e) =
        some ({ last_token := none }, .error e) :=
  fun _ _ _ => ⟨rfl, rfl, rfl⟩

/-- Claim C2: the run loop terminates successfully exactly when the
parked-task map is empty at the top of the wait-and-wake phase: if the drain
phase completes and leaves `waiting` empty, the loop immediately breaks with
`Ok(())` carrying that state (performing no wait); and every successful exit
is from a state with an empty `waiting` — there is no other successful
termination. -/
theorem c2_termination_iff_empty (beh : Behavior) (df fuel : Nat)
    (st stF : LoopState) :
    ((drain beh df st).2 = true → (drain beh df st).1.waiting = [] →
      runLoop beh df (fuel + 1) st = .ok (drain beh df st).1) ∧
    (runLoop beh df fuel st = .ok stF → stF.waiting = []) := by
  constructor
  · intro h2 hW
    exact runLoop_succ_ok h2 (by simp [hW])
  · exact runLoop_ok_waiting_empty beh df fuel st stF

/-- Witness for C2 on the one-task scenario that completes immediately. -/
theorem c2_termination_iff_empty_witness :
    runLoop behReady 1 1 stOne = .ok (drain behReady 1 stOne).1 ∧
      stOneDone.waiting = [] :=
  ⟨(c2_termination_iff_empty behReady 1 0 stOne stOneDone).1
      (by decide) (by decide),
   (c2_termination_iff_empty behReady 1 1 stOne stOneDone).2 (by decide)⟩

/-- Claim C3: if every poll of every task completes immediately (never
returns `Pending`), then whenever the drain phase finishes, `start` returns
success straight away and the blocking wait call never appears in the trace;
moreover, when additionally no task spawns, a drain fuel covering the initial
queue length is always enough for the drain phase to finish. -/
theorem c3_synchronous_drain (beh : Behavior) (df fuel : Nat) (L : List Task)
    (r : RegistryInner) (orc : List (Except IoError (List Token))) (c : Nat)
    (hready : ∀ id n, (beh id n).pending = false) :
    ((drain beh df ⟨L, [], r, orc, c, []⟩).2 = true →
      runLoop beh df (fuel + 1) ⟨L, [], r, orc, c, []⟩ =
        .ok (drain beh df ⟨L, [], r, orc, c, []⟩).1 ∧
      Ev.waited ∉
        ((runLoop beh df (fuel + 1) ⟨L, [], r, orc, c, []⟩).state).trace) ∧
    ((∀ id n, (beh id n).spawns = []) → L.length ≤ df →
      (drain beh df ⟨L, [], r, orc, c, []⟩).2 = true) := by
  constructor
  · intro h2
    have hwe : (drain beh df ⟨L, [], r, orc, c, []⟩).1.waiting = [] :=
      (drain_allready hready df ⟨L, [], r, orc, c, []⟩).1
    have hrun := @runLoop_succ_ok beh df fuel ⟨L, [], r, orc, c, []⟩ h2 (by simp [hwe])
    refine ⟨hrun, ?_⟩
    rw [hrun]
    simp only [Outcome.state]
    intro hw
    have h3 := drain_no_wait beh df ⟨L, [], r, orc, c, []⟩ hw
    simp at h3
  · intro hsp hlen
    exact drain_done_nospawn hsp df ⟨L, [], r, orc, c, []⟩ (by simpa using hlen)

/-- Witness for C3 on two immediately-completing tasks. -/
theorem c3_synchronous_drain_witness :
    (runLoop behReady 2 1 stC3 = .ok (drain behReady 2 stC3).1 ∧
      Ev.waited ∉ ((runLoop behReady 2 1 stC3).state).trace) ∧
    (drain behReady 2 stC3).2 = true := by
  have h := c3_synchronous_drain behReady 2 0 [⟨0, 0, 0⟩, ⟨1, 1, 0⟩]
    ⟨none⟩ [] 2 (fun _ _ => rfl)
  have hdone : (drain behReady 2 stC3).2 = true :=
    h.2 (fun _ _ => rfl) (by decide)
  exact ⟨h.1 hdone, hdone⟩

theorem spawnTasks_getElem? {ids : List Nat} {j b : Nat} (c : Nat)
    (h : ids[j]? = some b) :
    (spawnTasks ids c)[j]? = some ⟨b, c + j, 0⟩ := by
  induction ids generalizing j c with
  | nil => simp at h
  | cons i rest ih =>
    match j with
    | 0 =>
      have : i = b := by simpa using h
      simp [spawnTasks, this]
    | j + 1 =>
      have h2 : rest[j]? = some b := by simpa using h
      have h3 := ih (c := c + 1) h2
      simp only [spawnTasks, List.getElem?_cons_succ]
      rw [h3]
      have : c + 1 + j = c + (j + 1) := by omega
      rw [this]

/-- Claim C6: the wake operations of the handcrafted waker passed to every
poll (and of any clone of it) are no-ops: they change no executor state, and
running the loop after a wake is the same as running it without; moreover the
wake phase polls a parked task only when its own token fires — a parked task
none of whose tokens appear in the readiness batch is not polled by it. -/
theorem c6_noop_waker (w : NoopWaker) (st : LoopState) (beh : Behavior)
    (df fuel : Nat) :
    w.wake st = st ∧ w.wake_by_ref st = st ∧ w.clone = w ∧
    (w.clone).wake st = st ∧ (w.clone).wake_by_ref st = st ∧
    runLoop beh df fuel (w.wake st) = runLoop beh df fuel st ∧
    (∀ (events : List Token) (s : Nat),
      ((st.waiting.map (fun p => p.2.serial)).Nodup) →
      (∀ tok t, (tok, t) ∈ st.waiting → t.serial = s → tok ∉ events) →
      ∀ id p, Ev.polled id s p ∈ (wakeTasks beh events st).trace →
        Ev.polled id s p ∈ st.trace) := by
  refine ⟨rfl, rfl, rfl, rfl, rfl, rfl, ?_⟩
  intro events s hnd hun
  exact wake_unfired beh events st s hnd hun

/-- Witness for C6 on a state with one task parked under token 3 while token
5 fires. -/
theorem c6_noop_waker_witness :
    NoopWaker.wake ⟨()⟩ stC6 = stC6 ∧ Ev.polled 9 0 9 ∈ stC6.trace := by
  have h := c6_noop_waker ⟨()⟩ stC6 behReady 1 1
  refine ⟨h.1, ?_⟩
  refine h.2.2.2.2.2.2 [5] 0 (by decide) ?_ 9 9 (by decide)
  intro tok t hm hs
  simp only [stC6, List.mem_singleton] at hm
  have h1 : tok = 3 := congrArg Prod.fst hm
  rw [h1]
  decide

/-- Claim C7: a task that spawns a sibling is followed by the sibling being
polled (its first poll) before the run loop's first blocking wait, because
the drain phase keeps stealing until the queue is observed empty — here for
the root-task scenario, with drain fuel covering the sibling's queue
position. -/
theorem c7_sibling_polled_before_wait (beh : Behavior) (df fuel : Nat)
    (a : Task) (r : RegistryInner) (orc : List (Except IoError (List Token)))
    (c j bId : Nat)
    (hspawn : (beh a.id a.polls).spawns[j]? = some bId)
    (hdf : j + 2 ≤ df) :
    Ev.polled bId (c + j) 0 ∈
      beforeFirstWait (((runLoop beh df (fuel + 1)
        ⟨[a], [], r, orc, c, []⟩).state).trace) := by
  match df with
  | 0 => omega
  | df' + 1 =>
    set st : LoopState := ⟨[a], [], r, orc, c, []⟩ with hst
    set st1 : LoopState := pollTask beh a { st with injector := [] } with hst1
    have hdr : drain beh (df' + 1) st = drain beh df' st1 := by
      simp [drain, hst]
    have hb : st1.injector[j]? = some ⟨bId, c + j, 0⟩ := by
      rw [hst1, pollTask_injector]
      simpa using spawnTasks_getElem? c hspawn
    have hj : j < df' := by omega
    have hmem := drain_polls_index beh df' st1 j ⟨bId, c + j, 0⟩ hb hj
    have hnw : Ev.waited ∉ (drain beh df' st1).1.trace := by
      intro hw
      have h2 := drain_no_wait beh df' st1 hw
      rw [hst1, pollTask_trace] at h2
      simp [hst] at h2
    obtain ⟨l, hl⟩ := runLoop_after_drain beh (df' + 1) fuel st
    rw [hl, hdr, beforeFirstWait_append hnw]
    exact List.mem_append.mpr (Or.inl hmem)

/-- Witness for C7: the root task spawns sibling 7, which is polled before
any wait. -/
theorem c7_sibling_polled_before_wait_witness :
    Ev.polled 7 1 0 ∈
      beforeFirstWait (((runLoop behC7 2 1
        ⟨[⟨0, 0, 0⟩], [], ⟨none⟩, [], 1, []⟩).state).trace) := by
  have h := c7_sibling_polled_before_wait behC7 2 0 ⟨0, 0, 0⟩ ⟨none⟩ [] 1 0 7
    (by decide) (by decide)
  simpa using h

/-- Claim C1 as stated is false: in the `behC1` scenario task 1 returns
`Pending` having performed no registration at all (so it has no recorded
wait reason of its own), yet it is not dropped — it is parked under token 5,
which task 0 registered, and is later polled again (trace event
`polled 1 1 1`). -/
theorem c1_counterexample :
    (behC1 1 0).ops = [] ∧ (behC1 1 1).ops = [] ∧
    (drain behC1 2 stC1).1.waiting = [(5, ⟨1, 1, 1⟩)] ∧
    Ev.polled 1 1 1 ∈ ((runLoop behC1 2 3 stC1).state).trace := by
  decide

/-- Claim C1, amended: a task whose poll returns `Pending` is parked keyed by
the registry's single global `last_token` record as it stands after that poll
— which is the task's own most recent registration only when the task itself
registered last — and when that global record is `None` the task is dropped
and never polled again. -/
theorem c1_amended_parking (beh : Behavior) (st : LoopState) (t : Task)
    (hp : (beh t.id t.polls).pending = true) :
    (∀ tok, (applyRegOps (beh t.id t.polls).ops st.reg).last_token = some tok →
      (pollTask beh t st).waiting =
        insertW tok { t with polls := t.polls + 1 } st.waiting) ∧
    ((applyRegOps (beh t.id t.polls).ops st.reg).last_token = none →
      (pollTask beh t st).waiting = st.waiting ∧
      (Bounded st → t.serial < st.counter → t.serial ∉ serialsOf st →
        ∀ df fuel id p,
          Ev.polled id t.serial p ∈
            ((runLoop beh df fuel (pollTask beh t st)).state).trace →
          Ev.polled id t.serial p ∈ (pollTask beh t st).trace)) := by
  constructor
  · intro tok hl
    exact pollTask_waiting_pending_some hp hl
  · intro hl
    have hwu : (pollTask beh t st).waiting = st.waiting :=
      pollTask_waiting_pending_none hp hl
    refine ⟨hwu, ?_⟩
    intro hB htc hns df fuel id p hmem
    refine runLoop_avoids beh df fuel (pollTask beh t st) t.serial
      (pollTask_bounded hB htc)
      (Nat.lt_of_lt_of_le htc (pollTask_counter_le beh t st)) ?_ id p hmem
    intro hc
    rcases pollTask_serials_unparked hwu hc with h | h
    · exact hns h
    · exact absurd htc (Nat.not_lt.mpr h.1)

/-- Witness for the amended C1: a task that yields with `last_token = None`
leaves the parked-task map unchanged and its only trace events are the ones
already made. -/
theorem c1_amended_parking_witness :
    (pollTask behPend ⟨0, 0, 0⟩ stEmpty).waiting = [] ∧
    Ev.polled 0 0 0 ∈ (pollTask behPend ⟨0, 0, 0⟩ stEmpty).trace := by
  have h := c1_amended_parking behPend stEmpty ⟨0, 0, 0⟩ rfl
  have h2 := h.2 rfl
  exact ⟨h2.1, h2.2 (by decide) (by decide) (by decide) 1 1 0 0 (by decide)⟩

/-- Claim C9: `waiting.insert` keeps at most one task per token (key-nodup is
preserved, both for a bare insertion and across a whole poll step) and makes
the token map to the new task; and when a pending task is parked under a
token already holding a task, the earlier task is dropped — its serial
leaves the state and is never polled again. -/
theorem c9_token_replacement (beh : Behavior) (st : LoopState) (t told : Task)
    (tok : Token) :
    (∀ w : List (Token × Task), (w.map Prod.fst).Nodup →
      ((insertW tok t w).map Prod.fst).Nodup) ∧
    (∀ w : List (Token × Task), lookupW tok (insertW tok t w) = some t) ∧
    ((st.waiting.map Prod.fst).Nodup →
      (((pollTask beh t st).waiting).map Prod.fst).Nodup) ∧
    ((tok, told) ∈ st.waiting →
      (beh t.id t.polls).pending = true →
      (applyRegOps (beh t.id t.polls).ops st.reg).last_token = some tok →
      (serialsOf st).Nodup → Bounded st →
      t.serial ∉ serialsOf st → t.serial < st.counter →
      told.serial ∉ serialsOf (pollTask beh t st) ∧
      (∀ df fuel id p,
        Ev.polled id told.serial p ∈
          ((runLoop beh df fuel (pollTask beh t st)).state).trace →
        Ev.polled id told.serial p ∈ (pollTask beh t st).trace)) := by
  refine ⟨fun w h => insertW_keys_nodup h, fun w => lookupW_insertW tok t w, ?_, ?_⟩
  · intro hk
    match hp : (beh t.id t.polls).pending with
    | false => rw [pollTask_waiting_ready hp]; exact hk
    | true =>
      match hl : (applyRegOps (beh t.id t.polls).ops st.reg).last_token with
      | none => rw [pollTask_waiting_pending_none hp hl]; exact hk
      | some tok2 => rw [pollTask_waiting_pending_some hp hl]; exact insertW_keys_nodup hk
  · intro hmem hp hl hnd hB htns htc
    have hpw : (pollTask beh t st).waiting =
        insertW tok { t with polls := t.polls + 1 } st.waiting :=
      pollTask_waiting_pending_some hp hl
    have htoldw : told.serial ∈ st.waiting.map (fun p => p.2.serial) :=
      List.mem_map.mpr ⟨(tok, told), hmem, rfl⟩
    have htold_mem : told.serial ∈ serialsOf st := waiting_serial_mem hmem
    have htold_lt : told.serial < st.counter := hB _ htold_mem
    have hnodw : (st.waiting.map (fun p => p.2.serial)).Nodup :=
      List.Nodup.of_append_right hnd
    have hts_ne : t.serial ≠ told.serial := by
      intro he
      exact htns (he ▸ htold_mem)
    have hnot : told.serial ∉ serialsOf (pollTask beh t st) := by
      intro hc
      have hre : serialsOf (pollTask beh t st) =
          (st.injector ++ spawnTasks (beh t.id t.polls).spawns st.counter).map
            Task.serial ++
          (insertW tok { t with polls := t.polls + 1 } st.waiting).map
            (fun p => p.2.serial) := by
        unfold serialsOf
        rw [pollTask_injector, hpw]
      rw [hre] at hc
      simp only [List.map_append, List.mem_append, insertW, List.map_cons,
        List.mem_cons] at hc
      rcases hc with (hc | hc) | hc | hc
      · exact List.disjoint_of_nodup_append hnd hc htoldw
      · have := spawnTasks_serial_bound hc
        omega
      · exact hts_ne hc.symm
      · obtain ⟨q, hq, hqs⟩ := List.mem_map.mp hc
        exact replaced_not_in_filter hnodw hmem q hq hqs
    refine ⟨hnot, ?_⟩
    intro df fuel id p hmemT
    exact runLoop_avoids beh df fuel (pollTask beh t st) told.serial
      (pollTask_bounded hB htc)
      (Nat.lt_of_lt_of_le htold_lt (pollTask_counter_le beh t st)) hnot id p hmemT

/-- Witness for C9: task 0 registers token 5 and yields while serial 0 was
parked there; the map now holds the new task, serial 0 is gone, and serial
0's only trace events are the old ones. -/
theorem c9_token_replacement_witness :
    lookupW 5 (insertW 5 tC9 stC9.waiting) = some tC9 ∧
    (0 : Nat) ∉ serialsOf (pollTask behC9 tC9 stC9) ∧
    Ev.polled 9 0 0 ∈ (pollTask behC9 tC9 stC9).trace := by
  have h := c9_token_replacement behC9 stC9 tC9 ⟨9, 0, 1⟩ 5
  have h4 := h.2.2.2 (by decide) (by decide) (by decide) (by decide) (by decide)
    (by decide) (by decide)
  exact ⟨h.2.1 stC9.waiting, h4.1, h4.2 1 1 9 0 (by decide)⟩

end Cold
